import Mathlib

/-!
Verification of the FASTA filtering tools in this repository.

The repository has two scripts:
* `remove_acc.py` — reads a FASTA file and an accession exclusion list, and
  writes the FASTA records whose accession is not excluded
  (`read_accessions_to_remove`, `process_fasta`, `write_sequence`).
* `kaiju_nr_prepare.py` — orchestrates an external extraction command and
  post-processes its output (`convert_literal_newlines`).

Python strings are modelled as `List Char`; a text stream is a `List` of
lines (each line carried without its terminating newline, exactly the shape
produced by iterating a Python file handle and the shape consumed by
`line.rstrip`, which the code applies immediately).  Writing a line appends
the line to the output stream.  The per-line loop body of `process_fasta`
becomes a fold over an explicit state record holding the Python locals.
-/

/-- A Python string: a sequence of characters. -/
abbrev PyStr := List Char

/-- Python ASCII whitespace, as recognised by `str.split()` / `str.strip()`
with no arguments. -/
def isSpaceChar (c : Char) : Bool :=
  c == ' ' || c == '\t' || c == '\n' || c == '\r' || c == '\x0b' || c == '\x0c'

/-- Python `s.strip()` — remove leading and trailing whitespace. -/
def pyStrip (s : PyStr) : PyStr :=
  ((s.dropWhile isSpaceChar).reverse.dropWhile isSpaceChar).reverse

/-- Python `s.rstrip` with the two line-ending characters: remove every
trailing newline or carriage-return character. -/
def rstripNlCr (s : PyStr) : PyStr :=
  (s.reverse.dropWhile (fun c => c == '\n' || c == '\r')).reverse

/-- Helper for `pySplit`: `acc` holds the reversed current token. -/
def pySplitAux : PyStr → PyStr → List PyStr
  | [], [] => []
  | [], acc => [acc.reverse]
  | c :: cs, acc =>
    if isSpaceChar c then
      match acc with
      | [] => pySplitAux cs []
      | _ :: _ => acc.reverse :: pySplitAux cs []
    else pySplitAux cs (c :: acc)

/-- Python `s.split()` — split on runs of whitespace, producing no empty
tokens. -/
def pySplit (s : PyStr) : List PyStr :=
  pySplitAux s []

/-- The loop body of `read_accessions_to_remove` (remove_acc.py, lines
26–29): strip the line, and add it unless it is empty or a comment.  The
Python `set` is modelled as a duplicate-free list built by insert-if-absent,
so membership and size agree with the set. -/
def loaderStep (accessions : List PyStr) (rawLine : PyStr) : List PyStr :=
  let line := pyStrip rawLine
  if line ≠ [] ∧ line.head? ≠ some '#' then
    if line ∈ accessions then accessions else accessions ++ [line]
  else accessions

/-- Function `read_accessions_to_remove` (remove_acc.py, lines 13–30):
collect the
stripped lines that are non-empty and not comments. -/
def read_accessions_to_remove (file_lines : List PyStr) : List PyStr :=
  file_lines.foldl loaderStep []

/-- The loop state of `process_fasta` (remove_acc.py, lines 42–46), plus the
output stream written so far. -/
structure FState where
  removed_count : Nat
  kept_count : Nat
  current_header : Option PyStr
  current_sequence : List PyStr
  skip_current : Bool
  out : List PyStr
deriving Repr, DecidableEq

/-- Function `write_sequence` (remove_acc.py, lines 48–51): write the header
line and
then the concatenation of the sequence lines as a single line. -/
def write_sequence (header : PyStr) (sequence : List PyStr) (out : List PyStr) :
    List PyStr :=
  out ++ [header, sequence.flatten]

/-- Accession extraction (remove_acc.py, lines 79–80):
`parts = line.split(); accession = parts[0][1:] if len(parts) > 0 and len(parts[0]) > 1 else ''`. -/
def headerAccession (line : PyStr) : PyStr :=
  match pySplit line with
  | [] => []
  | p0 :: _ => if p0.length > 1 then p0.drop 1 else []

/-- Finalizing the pending record (remove_acc.py, lines 66–71 and 88–93):
write it and bump `kept_count` unless it is marked for skipping, in which
case bump `removed_count`. -/
def finishState (st : FState) : FState :=
  match st.current_header with
  | some h =>
    if !st.skip_current then
      { st with out := write_sequence h st.current_sequence st.out,
                kept_count := st.kept_count + 1 }
    else
      { st with removed_count := st.removed_count + 1 }
  | none => st

/-- The loop body of `process_fasta` (remove_acc.py, lines 61–85). -/
def processLine (accessions_to_remove : List PyStr) (st : FState)
    (rawLine : PyStr) : FState :=
  let line := rstripNlCr rawLine
  if line.head? = some '>' then
    let st1 := finishState st
    { st1 with current_header := some line,
               current_sequence := [],
               skip_current := decide (headerAccession line ∈ accessions_to_remove) }
  else
    match st.current_header with
    | some _ => { st with current_sequence := st.current_sequence ++ [line] }
    | none => st

/-- The initial values of the loop variables (remove_acc.py, lines 42–46). -/
def initState : FState :=
  { removed_count := 0, kept_count := 0, current_header := none,
    current_sequence := [], skip_current := false, out := [] }

/-- Function `process_fasta` (remove_acc.py, lines 33–101): fold the loop
body over
the input lines and finalize the last pending record. -/
def process_fasta (accessions_to_remove : List PyStr)
    (input_lines : List PyStr) : FState :=
  finishState (input_lines.foldl (processLine accessions_to_remove) initState)

/-- The summary printed to stderr (remove_acc.py, line 100). -/
def summaryLine (st : FState) : PyStr :=
  "Kept ".toList ++ (toString st.kept_count).toList
    ++ " sequences, removed ".toList ++ (toString st.removed_count).toList
    ++ " sequences".toList

/-- Function `convert_literal_newlines` (kaiju_nr_prepare.py, lines 96–117),
the pure
content transformation `content.replace('\\n', '\n')`: scan left to right and
replace each non-overlapping occurrence of the two characters backslash,
letter n by a newline character. -/
def convert_literal_newlines : PyStr → PyStr
  | [] => []
  | [c] => [c]
  | c :: d :: rest =>
    if c = '\\' ∧ d = 'n' then '\n' :: convert_literal_newlines rest
    else c :: convert_literal_newlines (d :: rest)

/-- Occurrence test: does the content contain the literal two-character
escape sequence backslash–n?  Used to state what `convert_literal_newlines`
replaces. -/
def hasLitNl : PyStr → Bool
  | [] => false
  | [_] => false
  | c :: d :: rest =>
    if c = '\\' ∧ d = 'n' then true else hasLitNl (d :: rest)

/-! ## Specification-side definitions

These formalize the record structure described by the spec: the input stream
decomposes into a discarded preamble followed by records, each a header line
with the sequence lines that follow it. -/

/-- Group the (stripped) input lines into records, carrying the record under
construction; lines seen before the first header are discarded. -/
def buildRecords : List PyStr → Option (PyStr × List PyStr) →
    List (PyStr × List PyStr)
  | [], none => []
  | [], some r => [r]
  | rawLine :: rest, cur =>
    let line := rstripNlCr rawLine
    if line.head? = some '>' then
      match cur with
      | none => buildRecords rest (some (line, []))
      | some r => r :: buildRecords rest (some (line, []))
    else
      match cur with
      | none => buildRecords rest none
      | some (h, seq) => buildRecords rest (some (h, seq ++ [line]))

/-- The records of an input stream. -/
def recordsOf (lines : List PyStr) : List (PyStr × List PyStr) :=
  buildRecords lines none

/-- The records whose accession is absent from the exclusion set. -/
def keptRecords (excl : List PyStr) (lines : List PyStr) :
    List (PyStr × List PyStr) :=
  (recordsOf lines).filter (fun r => !decide (headerAccession r.1 ∈ excl))

/-- The records whose accession is present in the exclusion set. -/
def removedRecords (excl : List PyStr) (lines : List PyStr) :
    List (PyStr × List PyStr) :=
  (recordsOf lines).filter (fun r => decide (headerAccession r.1 ∈ excl))

/-- A record rendered on output: its header line, then the concatenation of
its sequence lines as one line. -/
def renderRecord (r : PyStr × List PyStr) : List PyStr :=
  [r.1, r.2.flatten]

/-- The output stream the spec demands: the kept records, in input order,
each rendered as two lines. -/
def specOutput (excl : List PyStr) (lines : List PyStr) : List PyStr :=
  (keptRecords excl lines).flatMap renderRecord

/-- The number of header lines of the input. -/
def headerCount (lines : List PyStr) : Nat :=
  (lines.filter (fun l => decide ((rstripNlCr l).head? = some '>'))).length

/-- The record currently under construction in a filter state. -/
def curOf (st : FState) : Option (PyStr × List PyStr) :=
  match st.current_header with
  | some h => some (h, st.current_sequence)
  | none => none

/-- A record's contribution to the output stream. -/
def renderIf (excl : List PyStr) (r : PyStr × List PyStr) : List PyStr :=
  if headerAccession r.1 ∈ excl then [] else [r.1, r.2.flatten]

example : pySplit ">ACC1 desc one".toList = [">ACC1".toList, "desc".toList, "one".toList] := by decide
example : headerAccession ">ACC1 desc one".toList = "ACC1".toList := by decide
example : headerAccession ">".toList = [] := by decide
example : rstripNlCr "abc\r\n".toList = "abc".toList := by decide
example : read_accessions_to_remove ["# c".toList, "  A1  ".toList, "".toList, "A1".toList] = ["A1".toList] := by decide
example :
    (process_fasta ["ACC1".toList]
      [">ACC1 desc one".toList, "AAAA".toList, "CCCC".toList,
       ">ACC2 desc two".toList, "GGGG".toList]).out
    = [">ACC2 desc two".toList, "GGGG".toList] := by decide
example :
    (process_fasta ["ACC1".toList]
      [">ACC1 desc one".toList, "AAAA".toList, "CCCC".toList,
       ">ACC2 desc two".toList, "GGGG".toList]).kept_count = 1 := by decide
example : convert_literal_newlines "a\\nb".toList = "a\nb".toList := by decide

/-! ## The main characterization of `process_fasta` -/

theorem flatMap_renderIf (excl : List PyStr) (rs : List (PyStr × List PyStr)) :
    rs.flatMap (renderIf excl)
      = (rs.filter (fun r => !decide (headerAccession r.1 ∈ excl))).flatMap renderRecord := by
  induction rs with
  | nil => rfl
  | cons r rs ih =>
    by_cases hm : headerAccession r.1 ∈ excl
    · simp [List.flatMap_cons, renderIf, hm, List.filter_cons, ih]
    · simp [List.flatMap_cons, renderIf, hm, List.filter_cons, ih, renderRecord]

theorem run_spec (excl : List PyStr) (lines : List PyStr) :
    ∀ st : FState,
      (∀ h, st.current_header = some h →
        st.skip_current = decide (headerAccession h ∈ excl)) →
      (finishState (lines.foldl (processLine excl) st)).out
          = st.out ++ (buildRecords lines (curOf st)).flatMap (renderIf excl)
      ∧ (finishState (lines.foldl (processLine excl) st)).kept_count
          = st.kept_count + ((buildRecords lines (curOf st)).filter
              (fun r => !decide (headerAccession r.1 ∈ excl))).length
      ∧ (finishState (lines.foldl (processLine excl) st)).removed_count
          = st.removed_count + ((buildRecords lines (curOf st)).filter
              (fun r => decide (headerAccession r.1 ∈ excl))).length := by
  induction lines with
  | nil =>
    intro st hinv
    cases hh : st.current_header with
    | none =>
      simp [finishState, hh, buildRecords, curOf]
    | some h =>
      have hskip := hinv h hh
      by_cases hm : headerAccession h ∈ excl
      · simp [finishState, hh, hskip, hm, buildRecords, curOf, renderIf]
      · simp [finishState, hh, hskip, hm, buildRecords, curOf, renderIf,
              write_sequence]
  | cons l ls ih =>
    intro st hinv
    rw [List.foldl_cons]
    by_cases hl : (rstripNlCr l).head? = some '>'
    · -- a header line: finalize the pending record, start a new one
      have hinv2 : ∀ hx, (processLine excl st l).current_header = some hx →
          (processLine excl st l).skip_current
            = decide (headerAccession hx ∈ excl) := by
        intro hx hEq
        simp only [processLine, hl, if_pos] at hEq ⊢
        have hx2 : rstripNlCr l = hx := by simpa using hEq
        subst hx2
        rfl
      obtain ⟨h1, h2, h3⟩ := ih (processLine excl st l) hinv2
      cases hh : st.current_header with
      | none =>
        have hst : processLine excl st l =
            { st with current_header := some (rstripNlCr l),
                      current_sequence := [],
                      skip_current :=
                        decide (headerAccession (rstripNlCr l) ∈ excl) } := by
          simp [processLine, hl, finishState, hh]
        rw [hst] at h1 h2 h3 ⊢
        refine ⟨?_, ?_, ?_⟩
        · rw [h1]; simp [curOf, buildRecords, hl, hh]
        · rw [h2]; simp [curOf, buildRecords, hl, hh]
        · rw [h3]; simp [curOf, buildRecords, hl, hh]
      | some h =>
        have hskip := hinv h hh
        by_cases hm : headerAccession h ∈ excl
        · -- pending record is removed
          have hst : processLine excl st l =
              { st with removed_count := st.removed_count + 1,
                        current_header := some (rstripNlCr l),
                        current_sequence := [],
                        skip_current :=
                          decide (headerAccession (rstripNlCr l) ∈ excl) } := by
            simp [processLine, hl, finishState, hh, hskip, hm]
          rw [hst] at h1 h2 h3 ⊢
          refine ⟨?_, ?_, ?_⟩
          · rw [h1]
            simp [curOf, buildRecords, hl, hh, renderIf, hm]
          · rw [h2]
            simp [curOf, buildRecords, hl, hh, List.filter_cons, hm]
          · rw [h3]
            simp [curOf, buildRecords, hl, hh, List.filter_cons, hm]
            omega
        · -- pending record is kept and written
          have hst : processLine excl st l =
              { st with out := write_sequence h st.current_sequence st.out,
                        kept_count := st.kept_count + 1,
                        current_header := some (rstripNlCr l),
                        current_sequence := [],
                        skip_current :=
                          decide (headerAccession (rstripNlCr l) ∈ excl) } := by
            simp [processLine, hl, finishState, hh, hskip, hm]
          rw [hst] at h1 h2 h3 ⊢
          refine ⟨?_, ?_, ?_⟩
          · rw [h1]
            simp [curOf, buildRecords, hl, hh, renderIf, hm, write_sequence]
          · rw [h2]
            simp [curOf, buildRecords, hl, hh, List.filter_cons, hm]
            omega
          · rw [h3]
            simp [curOf, buildRecords, hl, hh, List.filter_cons, hm]
    · -- not a header line
      cases hh : st.current_header with
      | none =>
        have hst : processLine excl st l = st := by
          simp [processLine, hl, hh]
        rw [hst]
        have := ih st hinv
        simpa [curOf, buildRecords, hl, hh] using this
      | some h =>
        have hst : processLine excl st l =
            { st with current_sequence := st.current_sequence ++ [rstripNlCr l] } := by
          simp [processLine, hl, hh]
        have hinv2 : ∀ hx, (processLine excl st l).current_header = some hx →
            (processLine excl st l).skip_current
              = decide (headerAccession hx ∈ excl) := by
          rw [hst]
          intro hx hEq
          simp only [] at hEq
          exact hinv hx hEq
        obtain ⟨h1, h2, h3⟩ := ih (processLine excl st l) hinv2
        rw [hst] at h1 h2 h3 ⊢
        refine ⟨?_, ?_, ?_⟩
        · rw [h1]; simp [curOf, buildRecords, hl, hh]
        · rw [h2]; simp [curOf, buildRecords, hl, hh]
        · rw [h3]; simp [curOf, buildRecords, hl, hh]

/-- Specialization of `run_spec` to the initial state: the output stream of a
filter run is the rendering of the kept records. -/
theorem process_fasta_out (excl : List PyStr) (lines : List PyStr) :
    (process_fasta excl lines).out = specOutput excl lines := by
  have h := run_spec excl lines initState (by intro h hEq; simp [initState] at hEq)
  rw [process_fasta, h.1]
  simp [initState, curOf, specOutput, keptRecords, recordsOf, flatMap_renderIf]

/-- The kept counter counts the kept records. -/
theorem process_fasta_kept (excl : List PyStr) (lines : List PyStr) :
    (process_fasta excl lines).kept_count = (keptRecords excl lines).length := by
  have h := run_spec excl lines initState (by intro h hEq; simp [initState] at hEq)
  rw [process_fasta, h.2.1]
  simp [initState, curOf, keptRecords, recordsOf]

/-- The removed counter counts the removed records. -/
theorem process_fasta_removed (excl : List PyStr) (lines : List PyStr) :
    (process_fasta excl lines).removed_count = (removedRecords excl lines).length := by
  have h := run_spec excl lines initState (by intro h hEq; simp [initState] at hEq)
  rw [process_fasta, h.2.2]
  simp [initState, curOf, removedRecords, recordsOf]

/-- There is one record per header line (plus the pending one). -/
theorem buildRecords_length (lines : List PyStr) :
    ∀ cur : Option (PyStr × List PyStr),
      (buildRecords lines cur).length
        = headerCount lines + (match cur with | some _ => 1 | none => 0) := by
  induction lines with
  | nil =>
    intro cur
    cases cur <;> simp [buildRecords, headerCount]
  | cons l ls ih =>
    intro cur
    by_cases hl : (rstripNlCr l).head? = some '>'
    · cases cur with
      | none =>
        simp [buildRecords, hl, headerCount, List.filter_cons, ih]
      | some r =>
        simp [buildRecords, hl, headerCount, List.filter_cons, ih]
    · cases cur with
      | none =>
        simp [buildRecords, hl, headerCount, List.filter_cons, ih]
      | some r =>
        obtain ⟨h, seq⟩ := r
        simp [buildRecords, hl, headerCount, List.filter_cons, ih]

/-- The records of an input are in bijection with its header lines. -/
theorem recordsOf_length (lines : List PyStr) :
    (recordsOf lines).length = headerCount lines := by
  simpa [recordsOf] using buildRecords_length lines none

/-- A preamble of non-header lines contributes no records. -/
theorem buildRecords_preamble (pre : List PyStr)
    (hpre : ∀ l ∈ pre, (rstripNlCr l).head? ≠ some '>') (lines : List PyStr) :
    buildRecords (pre ++ lines) none = buildRecords lines none := by
  induction pre with
  | nil => rfl
  | cons p ps ih =>
    have hp := hpre p (List.mem_cons_self p ps)
    rw [List.cons_append]
    rw [show buildRecords ((p :: (ps ++ lines))) none
          = buildRecords (ps ++ lines) none by simp [buildRecords, hp]]
    exact ih (fun l hl => hpre l (List.mem_cons_of_mem p hl))

/-- C1: for every input line sequence and exclusion set, the filter's output
stream consists of exactly the records whose accession is absent from the
exclusion set, rendered in input order, and lines before the first header
line contribute nothing to the output and belong to no record. -/
theorem claim_C1 (excl : List PyStr) (pre input_lines : List PyStr)
    (hpre : ∀ l ∈ pre, (rstripNlCr l).head? ≠ some '>') :
    (process_fasta excl input_lines).out
        = ((recordsOf input_lines).filter
            (fun r => !decide (headerAccession r.1 ∈ excl))).flatMap renderRecord
    ∧ (process_fasta excl (pre ++ input_lines)).out
        = ((recordsOf input_lines).filter
            (fun r => !decide (headerAccession r.1 ∈ excl))).flatMap renderRecord := by
  constructor
  · rw [process_fasta_out]
    rfl
  · rw [process_fasta_out]
    show (keptRecords excl (pre ++ input_lines)).flatMap renderRecord = _
    rw [keptRecords, recordsOf, buildRecords_preamble pre hpre input_lines]
    rfl

/-- C1 witness: a concrete run with a discarded preamble line, one removed
record and one kept record. -/
theorem claim_C1_witness :
    (process_fasta ["A1".toList]
        [">A1 x".toList, "CC".toList, ">B2 y".toList, "GG".toList]).out
      = ((recordsOf [">A1 x".toList, "CC".toList, ">B2 y".toList, "GG".toList]).filter
          (fun r => !decide (headerAccession r.1 ∈ ["A1".toList]))).flatMap renderRecord
    ∧ (process_fasta ["A1".toList]
        (["junk".toList] ++ [">A1 x".toList, "CC".toList, ">B2 y".toList, "GG".toList])).out
      = ((recordsOf [">A1 x".toList, "CC".toList, ">B2 y".toList, "GG".toList]).filter
          (fun r => !decide (headerAccession r.1 ∈ ["A1".toList]))).flatMap renderRecord :=
  claim_C1 ["A1".toList] ["junk".toList]
    [">A1 x".toList, "CC".toList, ">B2 y".toList, "GG".toList] (by decide)

/-- C2: the two counters count the kept and the removed records respectively
(each record is counted exactly once, in exactly one of the two), and their
sum is exactly the number of header lines of the input. -/
theorem claim_C2 (excl : List PyStr) (input_lines : List PyStr) :
    (process_fasta excl input_lines).kept_count = (keptRecords excl input_lines).length
    ∧ (process_fasta excl input_lines).removed_count = (removedRecords excl input_lines).length
    ∧ (process_fasta excl input_lines).kept_count
        + (process_fasta excl input_lines).removed_count = headerCount input_lines := by
  refine ⟨process_fasta_kept excl input_lines, process_fasta_removed excl input_lines, ?_⟩
  rw [process_fasta_kept, process_fasta_removed]
  have hsplit := @List.length_eq_length_filter_add _ (recordsOf input_lines)
    (fun r => !decide (headerAccession r.1 ∈ excl))
  have hrec := recordsOf_length input_lines
  rw [keptRecords, removedRecords]
  simp only [Bool.not_not] at hsplit
  omega

/-- C8: on an empty input the filter completes with an empty output stream and
both counters zero; with an empty exclusion set it completes with
`removed_count = 0` on any input. -/
theorem claim_C8 (excl : List PyStr) (input_lines : List PyStr) :
    (process_fasta excl []).out = []
    ∧ (process_fasta excl []).kept_count = 0
    ∧ (process_fasta excl []).removed_count = 0
    ∧ (process_fasta [] input_lines).removed_count = 0 := by
  refine ⟨rfl, rfl, rfl, ?_⟩
  rw [process_fasta_removed]
  simp [removedRecords]

/-- C10: the filter is deterministic — two runs on the same input lines with
the same exclusion set agree on the output stream, on both counters, and on
the summary line. -/
theorem claim_C10 (excl : List PyStr) (input_lines : List PyStr)
    (resA resB : FState)
    (hA : resA = process_fasta excl input_lines)
    (hB : resB = process_fasta excl input_lines) :
    resA.out = resB.out
    ∧ resA.kept_count = resB.kept_count
    ∧ resA.removed_count = resB.removed_count
    ∧ summaryLine resA = summaryLine resB := by
  subst hA
  subst hB
  exact ⟨rfl, rfl, rfl, rfl⟩

/-- C10 witness: the two runs of a concrete input coincide. -/
theorem claim_C10_witness :
    (process_fasta ["A1".toList] [">A1".toList, "CC".toList]).out
        = (process_fasta ["A1".toList] [">A1".toList, "CC".toList]).out
    ∧ (process_fasta ["A1".toList] [">A1".toList, "CC".toList]).kept_count
        = (process_fasta ["A1".toList] [">A1".toList, "CC".toList]).kept_count
    ∧ (process_fasta ["A1".toList] [">A1".toList, "CC".toList]).removed_count
        = (process_fasta ["A1".toList] [">A1".toList, "CC".toList]).removed_count
    ∧ summaryLine (process_fasta ["A1".toList] [">A1".toList, "CC".toList])
        = summaryLine (process_fasta ["A1".toList] [">A1".toList, "CC".toList]) :=
  claim_C10 ["A1".toList] [">A1".toList, "CC".toList] _ _ rfl rfl

/-- Indexing into the rendered output: the kept record at position `i`
occupies exactly the two output lines `2*i` and `2*i+1`. -/
theorem flatMap_render_get (rs : List (PyStr × List PyStr)) :
    ∀ (i : Nat) (r : PyStr × List PyStr), rs[i]? = some r →
      (rs.flatMap renderRecord)[2 * i]? = some r.1
      ∧ (rs.flatMap renderRecord)[2 * i + 1]? = some r.2.flatten := by
  induction rs with
  | nil => intro i r h; simp at h
  | cons r0 rs ih =>
    intro i r h
    cases i with
    | zero =>
      simp at h
      subst h
      simp [List.flatMap_cons, renderRecord]
    | succ i =>
      simp only [List.getElem?_cons_succ] at h
      have h2 : 2 * (i + 1) = 2 * i + 1 + 1 := by ring
      have h3 : 2 * (i + 1) + 1 = (2 * i + 1) + 1 + 1 := by ring
      obtain ⟨ih1, ih2⟩ := ih i r h
      constructor
      · rw [h2]
        simpa [List.flatMap_cons, renderRecord] using ih1
      · rw [h3]
        simpa [List.flatMap_cons, renderRecord] using ih2

/-- C3: each kept record, whatever the number N of input lines its sequence
spanned, contributes exactly two output lines: its header line at position
`2*i`, then at `2*i+1` a single line that is the separator-free concatenation
of its N sequence lines. -/
theorem claim_C3 (excl : List PyStr) (input_lines : List PyStr) (i : Nat)
    (r : PyStr × List PyStr) (h : (keptRecords excl input_lines)[i]? = some r) :
    (process_fasta excl input_lines).out[2 * i]? = some r.1
    ∧ (process_fasta excl input_lines).out[2 * i + 1]? = some r.2.flatten := by
  rw [process_fasta_out]
  exact flatMap_render_get (keptRecords excl input_lines) i r h

/-- C3 witness: a concrete kept record whose sequence spans two input lines
is written as its header line followed by the concatenation of the two. -/
theorem claim_C3_witness :
    (process_fasta [] [">A x".toList, "CC".toList, "GG".toList]).out[2 * 0]?
        = some (">A x".toList, ["CC".toList, "GG".toList]).1
    ∧ (process_fasta [] [">A x".toList, "CC".toList, "GG".toList]).out[2 * 0 + 1]?
        = some (">A x".toList, ["CC".toList, "GG".toList]).2.flatten :=
  claim_C3 [] [">A x".toList, "CC".toList, "GG".toList] 0
    (">A x".toList, ["CC".toList, "GG".toList]) (by decide)

/-- The accession rule exactly as the spec words it: split the header line on
whitespace; if the first token (marker character included) has length greater
than 1, the accession is that token with its single leading marker character
removed; otherwise (token of length at most 1, or no token at all) the
accession is the empty string. -/
def accession_spec (line : PyStr) : PyStr :=
  match (pySplit line).head? with
  | some tok => if 1 < tok.length then tok.drop 1 else []
  | none => []

/-- C5: on every header line the accession computed by the code agrees with
the spec's accession rule. -/
theorem claim_C5 (line : PyStr) : headerAccession line = accession_spec line := by
  rw [headerAccession, accession_spec]
  cases h : pySplit line with
  | nil => rfl
  | cons t ts => simp

/-- Membership in the loader's fold: an element is present iff it was
already in the accumulator or it is the stripped form of some input line and
is neither empty nor a comment. -/
theorem loader_foldl_mem (file_lines : List PyStr) :
    ∀ (acc : List PyStr) (x : PyStr),
      x ∈ file_lines.foldl loaderStep acc
        ↔ x ∈ acc ∨ ((∃ l ∈ file_lines, pyStrip l = x)
            ∧ x ≠ [] ∧ x.head? ≠ some '#') := by
  induction file_lines with
  | nil => intro acc x; simp
  | cons l ls ih =>
    intro acc x
    rw [List.foldl_cons, ih]
    by_cases hc : pyStrip l ≠ [] ∧ (pyStrip l).head? ≠ some '#'
    · have hstep : x ∈ loaderStep acc l ↔ x ∈ acc ∨ x = pyStrip l := by
        simp only [loaderStep]
        rw [if_pos hc]
        by_cases hmem : pyStrip l ∈ acc
        · simp only [hmem, if_true]
          constructor
          · intro h; exact Or.inl h
          · rintro (h | h)
            · exact h
            · rw [h]; exact hmem
        · simp only [hmem, if_false]
          simp [List.mem_append, eq_comm]
      rw [hstep]
      constructor
      · rintro ((h | h) | h)
        · exact Or.inl h
        · subst h
          exact Or.inr ⟨⟨l, List.mem_cons_self l ls, rfl⟩, hc.1, hc.2⟩
        · rcases h with ⟨⟨a, ha, hax⟩, hx1, hx2⟩
          exact Or.inr ⟨⟨a, List.mem_cons_of_mem l ha, hax⟩, hx1, hx2⟩
      · rintro (h | h)
        · exact Or.inl (Or.inl h)
        · rcases h with ⟨⟨a, ha, hax⟩, hx1, hx2⟩
          rcases List.mem_cons.mp ha with ha1 | ha2
          · subst ha1
            exact Or.inl (Or.inr hax.symm)
          · exact Or.inr ⟨⟨a, ha2, hax⟩, hx1, hx2⟩
    · have hstep : loaderStep acc l = acc := by
        simp only [loaderStep]
        rw [if_neg hc]
      rw [hstep]
      constructor
      · rintro (h | h)
        · exact Or.inl h
        · rcases h with ⟨⟨a, ha, hax⟩, hx1, hx2⟩
          exact Or.inr ⟨⟨a, List.mem_cons_of_mem l ha, hax⟩, hx1, hx2⟩
      · rintro (h | h)
        · exact Or.inl h
        · rcases h with ⟨⟨a, ha, hax⟩, hx1, hx2⟩
          rcases List.mem_cons.mp ha with ha1 | ha2
          · subst ha1
            exact absurd ⟨by rw [hax]; exact hx1, by rw [hax]; exact hx2⟩ hc
          · exact Or.inr ⟨⟨a, ha2, hax⟩, hx1, hx2⟩

/-- The exclusion set returned by the loader. -/
theorem loader_mem (file_lines : List PyStr) (x : PyStr) :
    x ∈ read_accessions_to_remove file_lines
      ↔ (∃ l ∈ file_lines, pyStrip l = x) ∧ x ≠ [] ∧ x.head? ≠ some '#' := by
  rw [read_accessions_to_remove, loader_foldl_mem]
  simp

/-- The loader never returns the empty string. -/
theorem loader_no_empty (file_lines : List PyStr) :
    ([] : PyStr) ∉ read_accessions_to_remove file_lines := by
  rw [loader_mem]
  rintro ⟨-, h, -⟩
  exact h rfl

/-- A header whose first whitespace token has length at most 1 (or which has
no token at all) yields the empty accession. -/
theorem headerAccession_short (line : PyStr)
    (h : (pySplit line).head?.all (fun t => decide (t.length ≤ 1)) = true) :
    headerAccession line = [] := by
  rw [headerAccession]
  cases hs : pySplit line with
  | nil => rfl
  | cons t ts =>
    rw [hs] at h
    have ht : t.length ≤ 1 := by simpa [Option.all] using h
    have hgt : ¬ t.length > 1 := by omega
    simp [hgt]

/-- C6: a loader-produced exclusion set never contains the empty string, so
a record whose header's first whitespace token has length at most 1 gets the
empty accession, matches no exclusion entry, and is always kept. -/
theorem claim_C6 (excl_file_lines : List PyStr) (fasta_lines : List PyStr)
    (r : PyStr × List PyStr) (hrec : r ∈ recordsOf fasta_lines)
    (hshort : (pySplit r.1).head?.all (fun t => decide (t.length ≤ 1)) = true) :
    headerAccession r.1 = []
    ∧ headerAccession r.1 ∉ read_accessions_to_remove excl_file_lines
    ∧ r ∈ keptRecords (read_accessions_to_remove excl_file_lines) fasta_lines := by
  have hacc := headerAccession_short r.1 hshort
  have hnot : headerAccession r.1 ∉ read_accessions_to_remove excl_file_lines := by
    rw [hacc]
    exact loader_no_empty excl_file_lines
  refine ⟨hacc, hnot, ?_⟩
  rw [keptRecords]
  exact List.mem_filter.mpr ⟨hrec, by simpa using hnot⟩

/-- C6 witness: with the exclusion file containing `AB`, the record whose
header is the bare marker `>` is kept. -/
theorem claim_C6_witness :
    headerAccession (">".toList, ([] : List PyStr)).1 = []
    ∧ headerAccession (">".toList, ([] : List PyStr)).1
        ∉ read_accessions_to_remove ["AB".toList]
    ∧ (">".toList, ([] : List PyStr))
        ∈ keptRecords (read_accessions_to_remove ["AB".toList]) [">".toList] :=
  claim_C6 ["AB".toList] [">".toList] (">".toList, []) (by decide) (by decide)

/-- C7: the loader returns exactly the whitespace-stripped input lines that
are non-empty and do not start with the comment marker; a file of only blank
and comment lines therefore yields the empty exclusion set, and filtering any
input against it removes nothing. -/
theorem claim_C7 (excl_file_lines : List PyStr) :
    (∀ x : PyStr, x ∈ read_accessions_to_remove excl_file_lines
        ↔ (∃ l ∈ excl_file_lines, pyStrip l = x) ∧ x ≠ [] ∧ x.head? ≠ some '#')
    ∧ ((∀ l ∈ excl_file_lines, pyStrip l = [] ∨ (pyStrip l).head? = some '#') →
        (read_accessions_to_remove excl_file_lines).length = 0
        ∧ ∀ input_lines : List PyStr,
            (process_fasta (read_accessions_to_remove excl_file_lines)
              input_lines).removed_count = 0) := by
  refine ⟨loader_mem excl_file_lines, ?_⟩
  intro hall
  have hempty : read_accessions_to_remove excl_file_lines = [] := by
    rw [List.eq_nil_iff_forall_not_mem]
    intro x hx
    rw [loader_mem] at hx
    rcases hx with ⟨⟨l, hl, hlx⟩, hx1, hx2⟩
    rcases hall l hl with h | h
    · exact hx1 (by rw [← hlx, h])
    · exact hx2 (by rw [← hlx]; exact h)
  constructor
  · rw [hempty]
    rfl
  · intro input_lines
    rw [hempty, process_fasta_removed]
    simp [removedRecords]

/-- C7 witness: a loaded entry is the stripped line; blank and comment lines
produce the empty set and a removal-free run. -/
theorem claim_C7_witness :
    ("A1".toList ∈ read_accessions_to_remove ["  A1 ".toList])
    ∧ (read_accessions_to_remove ["# c".toList, "   ".toList]).length = 0
    ∧ (process_fasta (read_accessions_to_remove ["# c".toList, "   ".toList])
        [">A1".toList, "CC".toList]).removed_count = 0 :=
  ⟨((claim_C7 ["  A1 ".toList]).1 "A1".toList).mpr (by decide),
   ((claim_C7 ["# c".toList, "   ".toList]).2 (by decide)).1,
   ((claim_C7 ["# c".toList, "   ".toList]).2 (by decide)).2
     [">A1".toList, "CC".toList]⟩

/-- A content without the literal escape sequence is left unchanged. -/
theorem cln_id (s : PyStr) (h : hasLitNl s = false) :
    convert_literal_newlines s = s := by
  induction s with
  | nil => rfl
  | cons c s ih =>
    cases s with
    | nil => rfl
    | cons d rest =>
      rw [hasLitNl] at h
      by_cases hp : c = '\\' ∧ d = 'n'
      · rw [if_pos hp] at h
        exact absurd h (by simp)
      · rw [if_neg hp] at h
        rw [convert_literal_newlines, if_neg hp, ih h]

/-- The leftmost occurrence of the literal escape sequence becomes a newline,
and the occurrence-free text before it is copied verbatim. -/
theorem cln_split (b : PyStr) :
    ∀ a : PyStr, hasLitNl a = false →
      convert_literal_newlines (a ++ '\\' :: 'n' :: b)
        = a ++ '\n' :: convert_literal_newlines b := by
  intro a
  induction a with
  | nil =>
    intro _
    rw [List.nil_append, convert_literal_newlines, if_pos ⟨rfl, rfl⟩]
    rfl
  | cons c s ih =>
    intro h
    cases s with
    | nil =>
      have hp : ¬(c = '\\' ∧ '\\' = 'n') := by
        rintro ⟨-, h2⟩
        exact absurd h2 (by decide)
      rw [List.cons_append, List.nil_append, convert_literal_newlines,
          if_neg hp]
      rw [show convert_literal_newlines ('\\' :: 'n' :: b)
            = '\n' :: convert_literal_newlines b by
        rw [convert_literal_newlines, if_pos ⟨rfl, rfl⟩]]
      rfl
    | cons d rest =>
      rw [hasLitNl] at h
      by_cases hp : c = '\\' ∧ d = 'n'
      · rw [if_pos hp] at h
        exact absurd h (by simp)
      · rw [if_neg hp] at h
        rw [List.cons_append, List.cons_append, convert_literal_newlines,
            if_neg hp]
        rw [show d :: (rest ++ '\\' :: 'n' :: b)
              = (d :: rest) ++ '\\' :: 'n' :: b from rfl]
        rw [ih h]
        rfl

/-- Predicate `hasLitNl` decides the existence of an occurrence of the
literal escape
sequence. -/
theorem hasLitNl_iff (s : PyStr) :
    hasLitNl s = true ↔ ∃ u v : PyStr, u ++ '\\' :: 'n' :: v = s := by
  induction s with
  | nil =>
    simp only [hasLitNl]
    constructor
    · intro h; exact absurd h (by simp)
    · rintro ⟨u, v, hu⟩
      exact absurd hu (by simp)
  | cons c s ih =>
    cases s with
    | nil =>
      simp only [hasLitNl]
      constructor
      · intro h; exact absurd h (by simp)
      · rintro ⟨u, v, hu⟩
        have := congrArg List.length hu
        simp [List.length_append] at this
        omega
    | cons d rest =>
      rw [hasLitNl]
      by_cases hp : c = '\\' ∧ d = 'n'
      · rw [if_pos hp]
        obtain ⟨hc, hd⟩ := hp
        subst hc; subst hd
        constructor
        · intro _
          exact ⟨[], rest, rfl⟩
        · intro _; rfl
      · rw [if_neg hp]
        constructor
        · intro h
          rcases ih.mp h with ⟨u, v, hu⟩
          exact ⟨c :: u, v, by rw [List.cons_append, hu]⟩
        · rintro ⟨u, v, hu⟩
          cases u with
          | nil =>
            rw [List.nil_append] at hu
            injection hu with h1 h2
            injection h2 with h2a h2b
            exact absurd ⟨h1.symm, h2a.symm⟩ hp
          | cons e u2 =>
            rw [List.cons_append] at hu
            injection hu with h1 h2
            exact ih.mpr ⟨u2, v, h2⟩

/-- C9: the extractor's post-processing writes exactly the intermediate
content with every occurrence of the literal two-character escape sequence
backslash–n replaced by a newline character and nothing else changed:
occurrence-free content is copied verbatim, the text before the leftmost
occurrence is preserved around the replacement, and `hasLitNl` detects
exactly the occurrences. -/
theorem claim_C9 (content a b : PyStr) :
    (hasLitNl content = false → convert_literal_newlines content = content)
    ∧ (hasLitNl a = false →
        convert_literal_newlines (a ++ '\\' :: 'n' :: b)
          = a ++ '\n' :: convert_literal_newlines b)
    ∧ (hasLitNl content = true ↔ ∃ u v : PyStr, u ++ '\\' :: 'n' :: v = content) :=
  ⟨cln_id content, cln_split b a, hasLitNl_iff content⟩

/-- C9 witness: a concrete occurrence-free content and a concrete occurrence. -/
theorem claim_C9_witness :
    convert_literal_newlines "ab".toList = "ab".toList
    ∧ convert_literal_newlines ("x".toList ++ '\\' :: 'n' :: "y".toList)
        = "x".toList ++ '\n' :: convert_literal_newlines "y".toList :=
  ⟨(claim_C9 "ab".toList "x".toList "y".toList).1 (by decide),
   (claim_C9 "ab".toList "x".toList "y".toList).2.1 (by decide)⟩

/-! ## Idempotence of re-filtering -/

theorem dropWhile_twice (p : Char → Bool) (l : PyStr) :
    List.dropWhile p (List.dropWhile p l) = List.dropWhile p l := by
  induction l with
  | nil => rfl
  | cons a l ih =>
    by_cases hp : p a = true
    · rw [List.dropWhile_cons, if_pos hp, ih]
    · rw [List.dropWhile_cons, if_neg hp, List.dropWhile_cons, if_neg hp]

theorem rstrip_idem (s : PyStr) :
    rstripNlCr (rstripNlCr s) = rstripNlCr s := by
  simp only [rstripNlCr, List.reverse_reverse, dropWhile_twice]

theorem dropWhile_head_not (p : Char → Bool) (l : PyStr) :
    ∀ c, (List.dropWhile p l).head? = some c → p c = false := by
  induction l with
  | nil => intro c h; simp at h
  | cons a l ih =>
    intro c h
    by_cases hp : p a = true
    · rw [List.dropWhile_cons, if_pos hp] at h
      exact ih c h
    · rw [List.dropWhile_cons, if_neg hp] at h
      simp only [List.head?_cons, Option.some.injEq] at h
      subst h
      exact Bool.eq_false_iff.mpr hp

/-- After an rstrip the last character is never one of the stripped ones. -/
theorem rstrip_getLast (s : PyStr) :
    ∀ c, (rstripNlCr s).getLast? = some c → (c == '\n' || c == '\r') = false := by
  intro c h
  rw [← List.head?_reverse, rstripNlCr, List.reverse_reverse] at h
  exact dropWhile_head_not _ _ c h

/-- A string whose last character is not a stripped one is fixed by rstrip. -/
theorem rstrip_eq_self (s : PyStr)
    (h : ∀ c, s.getLast? = some c → (c == '\n' || c == '\r') = false) :
    rstripNlCr s = s := by
  rw [rstripNlCr]
  cases hr : s.reverse with
  | nil =>
    rw [List.reverse_eq_nil_iff] at hr
    rw [hr]
    rfl
  | cons a t =>
    have ha : s.getLast? = some a := by
      rw [← List.head?_reverse, hr, List.head?_cons]
    rw [List.dropWhile_cons, if_neg (by rw [h a ha]; simp), ← hr,
        List.reverse_reverse]

/-- The concatenation of strings with safe last characters has a safe last
character. -/
theorem flatten_getLast_safe (seq : List PyStr)
    (h : ∀ l ∈ seq, ∀ c, l.getLast? = some c → (c == '\n' || c == '\r') = false) :
    ∀ c, seq.flatten.getLast? = some c → (c == '\n' || c == '\r') = false := by
  induction seq with
  | nil => intro c hc; simp at hc
  | cons x xs ih =>
    intro c hc
    rw [List.flatten_cons] at hc
    by_cases hxs : xs.flatten = []
    · rw [hxs, List.append_nil] at hc
      exact h x (List.mem_cons_self x xs) c hc
    · rw [List.getLast?_append_of_ne_nil x hxs] at hc
      exact ih (fun l hl => h l (List.mem_cons_of_mem x hl)) c hc

/-- The concatenation of non-header strings does not begin with the marker. -/
theorem flatten_head_not_gt (seq : List PyStr)
    (h : ∀ l ∈ seq, l.head? ≠ some '>') :
    seq.flatten.head? ≠ some '>' := by
  induction seq with
  | nil => simp
  | cons x xs ih =>
    rw [List.flatten_cons, List.head?_append]
    cases hx : x.head? with
    | none =>
      simp only [Option.none_or]
      exact ih (fun l hl => h l (List.mem_cons_of_mem x hl))
    | some a =>
      have := h x (List.mem_cons_self x xs)
      rw [hx] at this
      simpa [Option.or] using this

/-- Well-formedness of a parsed record: the header starts with the marker and
is rstrip-fixed, and every sequence line is a non-header rstrip-fixed line. -/
def goodRecord (r : PyStr × List PyStr) : Prop :=
  r.1.head? = some '>' ∧ rstripNlCr r.1 = r.1
    ∧ ∀ l ∈ r.2, l.head? ≠ some '>' ∧ rstripNlCr l = l

/-- Every record produced by `buildRecords` is well-formed, provided the
record under construction is. -/
theorem buildRecords_good (lines : List PyStr) :
    ∀ cur : Option (PyStr × List PyStr),
      (∀ rc, cur = some rc → goodRecord rc) →
      ∀ r ∈ buildRecords lines cur, goodRecord r := by
  induction lines with
  | nil =>
    intro cur hcur r hr
    cases cur with
    | none => simp [buildRecords] at hr
    | some rc =>
      simp only [buildRecords, List.mem_singleton] at hr
      subst hr
      exact hcur r rfl
  | cons l ls ih =>
    intro cur hcur r hr
    by_cases hl : (rstripNlCr l).head? = some '>'
    · have hnewgood : ∀ rc, (some (rstripNlCr l, ([] : List PyStr))) = some rc →
          goodRecord rc := by
        intro rc hEq
        injection hEq with hEq
        subst hEq
        exact ⟨hl, rstrip_idem l, by simp⟩
      cases cur with
      | none =>
        rw [show buildRecords (l :: ls) none
              = buildRecords ls (some (rstripNlCr l, [])) by
          simp [buildRecords, hl]] at hr
        exact ih _ hnewgood r hr
      | some rc =>
        rw [show buildRecords (l :: ls) (some rc)
              = rc :: buildRecords ls (some (rstripNlCr l, [])) by
          simp [buildRecords, hl]] at hr
        rcases List.mem_cons.mp hr with hr1 | hr2
        · subst hr1
          exact hcur r rfl
        · exact ih _ hnewgood r hr2
    · cases cur with
      | none =>
        rw [show buildRecords (l :: ls) none = buildRecords ls none by
          simp [buildRecords, hl]] at hr
        exact ih none (by intro rc h; cases h) r hr
      | some rc =>
        obtain ⟨hh, seq⟩ := rc
        rw [show buildRecords (l :: ls) (some (hh, seq))
              = buildRecords ls (some (hh, seq ++ [rstripNlCr l])) by
          simp [buildRecords, hl]] at hr
        refine ih _ ?_ r hr
        intro rc hEq
        injection hEq with hEq
        subst hEq
        obtain ⟨g1, g2, g3⟩ := hcur (hh, seq) rfl
        refine ⟨g1, g2, ?_⟩
        intro x hx
        rcases List.mem_append.mp hx with hx1 | hx2
        · exact g3 x hx1
        · rw [List.mem_singleton] at hx2
          subst hx2
          exact ⟨hl, rstrip_idem l⟩

/-- Every record of an input stream is well-formed. -/
theorem recordsOf_good (lines : List PyStr) :
    ∀ r ∈ recordsOf lines, goodRecord r :=
  buildRecords_good lines none (by intro rc h; cases h)

/-- The rendered facts a well-formed record gives about its two output
lines. -/
theorem goodRecord_render (r : PyStr × List PyStr) (h : goodRecord r) :
    r.1.head? = some '>' ∧ rstripNlCr r.1 = r.1
    ∧ r.2.flatten.head? ≠ some '>' ∧ rstripNlCr r.2.flatten = r.2.flatten := by
  obtain ⟨g1, g2, g3⟩ := h
  refine ⟨g1, g2, flatten_head_not_gt r.2 (fun l hl => (g3 l hl).1), ?_⟩
  refine rstrip_eq_self _ (flatten_getLast_safe r.2 ?_)
  intro l hl c hc
  rw [← (g3 l hl).2] at hc
  exact rstrip_getLast l c hc

/-- Re-parsing a rendered stream of well-formed records, with a pending
record: the pending record is closed by the first rendered header, and each
rendered record parses back as its header with the single flattened line. -/
theorem buildRecords_render_some (rs : List (PyStr × List PyStr))
    (hg : ∀ r ∈ rs, goodRecord r) :
    ∀ c, buildRecords (rs.flatMap renderRecord) (some c)
      = c :: rs.map (fun r => (r.1, [r.2.flatten])) := by
  induction rs with
  | nil => intro c; rfl
  | cons r rs ih =>
    intro c
    obtain ⟨f1, f2, f3, f4⟩ := goodRecord_render r (hg r (List.mem_cons_self r rs))
    rw [List.flatMap_cons, renderRecord]
    rw [show ([r.1, r.2.flatten] : List PyStr) ++ rs.flatMap renderRecord
          = r.1 :: r.2.flatten :: rs.flatMap renderRecord from rfl]
    rw [show buildRecords (r.1 :: r.2.flatten :: rs.flatMap renderRecord) (some c)
          = c :: buildRecords (r.2.flatten :: rs.flatMap renderRecord)
              (some (rstripNlCr r.1, [])) by
      simp [buildRecords, f2, f1]]
    rw [f2]
    rw [show buildRecords (r.2.flatten :: rs.flatMap renderRecord)
            (some (r.1, []))
          = buildRecords (rs.flatMap renderRecord)
              (some (r.1, [rstripNlCr r.2.flatten])) by
      simp [buildRecords, f4, f3]]
    rw [f4]
    rw [ih (fun x hx => hg x (List.mem_cons_of_mem r hx)) (r.1, [r.2.flatten])]
    rfl

/-- Re-parsing a rendered stream of well-formed records from scratch yields
exactly one record per rendered record, with the flattened sequence line. -/
theorem buildRecords_render_none (rs : List (PyStr × List PyStr))
    (hg : ∀ r ∈ rs, goodRecord r) :
    buildRecords (rs.flatMap renderRecord) none
      = rs.map (fun r => (r.1, [r.2.flatten])) := by
  cases rs with
  | nil => rfl
  | cons r rs =>
    obtain ⟨f1, f2, f3, f4⟩ := goodRecord_render r (hg r (List.mem_cons_self r rs))
    rw [List.flatMap_cons, renderRecord]
    rw [show ([r.1, r.2.flatten] : List PyStr) ++ rs.flatMap renderRecord
          = r.1 :: r.2.flatten :: rs.flatMap renderRecord from rfl]
    rw [show buildRecords (r.1 :: r.2.flatten :: rs.flatMap renderRecord) none
          = buildRecords (r.2.flatten :: rs.flatMap renderRecord)
              (some (rstripNlCr r.1, [])) by
      simp [buildRecords, f2, f1]]
    rw [f2]
    rw [show buildRecords (r.2.flatten :: rs.flatMap renderRecord)
            (some (r.1, []))
          = buildRecords (rs.flatMap renderRecord)
              (some (r.1, [rstripNlCr r.2.flatten])) by
      simp [buildRecords, f4, f3]]
    rw [f4]
    rw [buildRecords_render_some rs
          (fun x hx => hg x (List.mem_cons_of_mem r hx)) (r.1, [r.2.flatten])]
    rfl

/-- C4: re-filtering an already-filtered output against the same exclusion
set removes nothing and reproduces the output unchanged. -/
theorem claim_C4 (excl : List PyStr) (input_lines : List PyStr) :
    (process_fasta excl ((process_fasta excl input_lines).out)).removed_count = 0
    ∧ (process_fasta excl ((process_fasta excl input_lines).out)).out
        = (process_fasta excl input_lines).out := by
  have hkg : ∀ r ∈ keptRecords excl input_lines, goodRecord r := by
    intro r hr
    exact recordsOf_good input_lines r (List.mem_of_mem_filter hr)
  have hout1 : (process_fasta excl input_lines).out
      = (keptRecords excl input_lines).flatMap renderRecord :=
    process_fasta_out excl input_lines
  have hparse : recordsOf ((process_fasta excl input_lines).out)
      = (keptRecords excl input_lines).map (fun r => (r.1, [r.2.flatten])) := by
    rw [hout1, recordsOf, buildRecords_render_none _ hkg]
  have hmapkept : ∀ a ∈ (keptRecords excl input_lines).map
      (fun r => (r.1, [r.2.flatten])),
      (!decide (headerAccession a.1 ∈ excl)) = true := by
    intro a ha
    rcases List.mem_map.mp ha with ⟨r, hr, hfr⟩
    have := (List.mem_filter.mp hr).2
    rw [← hfr]
    simpa using this
  constructor
  · rw [process_fasta_removed, removedRecords, hparse]
    rw [show ((keptRecords excl input_lines).map
          (fun r => (r.1, [r.2.flatten]))).filter
            (fun r => decide (headerAccession r.1 ∈ excl)) = [] from
      List.filter_eq_nil_iff.mpr (by
        intro a ha
        have := hmapkept a ha
        simp only [Bool.not_eq_true'] at this
        simp [this])]
    rfl
  · rw [process_fasta_out]
    show (keptRecords excl ((process_fasta excl input_lines).out)).flatMap
        renderRecord = _
    rw [keptRecords, hparse, List.filter_eq_self.mpr hmapkept,
        List.flatMap_map]
    rw [hout1]
    apply List.flatMap_congr
    intro r hr
    simp [renderRecord]
